import Mathlib

/-!
Formal model of the Creditors Ageing with 43B(h) Check repository.

The repository has two entry points, app.py and app_try_1.py, whose cores are
the functions parse_ledger_df and calculate_creditor_aging_and_43b.  This file
gives a shallow embedding of those cores and proves or refutes the frozen
claims about them.

Modelling conventions:
* Monetary amounts are Python floats in the source.  The engine only ever
  adds, subtracts, takes min and compares amounts, so amounts are modelled as
  exact integers (Int); no claim concerns float rounding behaviour.
* Dates are modelled as day numbers (Int); pd.Timestamp subtraction .days and
  pd.Timedelta(days = 45) become integer subtraction and + 45.  The constant
  y2000 is the day number of 2000-01-01.
* Python str.strip / str.lower / str.startswith and the substring test are
  modelled by kernel-computable functions over the character list of a
  String (trimStr, lowerStr, startsWithStr, strContains).
* pandas sorts (sort_values, groupby key order, list.sort) are modelled with
  List.insertionSort, a stable sort.  Where several rows share the full sort
  key the pandas default quicksort may permute them; the spec flags that tie
  order as an open question and no claim below depends on it.
* A pandas DataFrame becomes a List of records.  A cell read with
  Series.get(column, default) on a row whose column is absent is modelled by
  an Option String field that is none when the column is missing.
-/

/-- One normalized ledger transaction, a row of the DataFrame produced by
parse_ledger_df: columns Party, Date, Debit, Credit. -/
structure Txn where
  party : String
  date : Int
  debit : Int
  credit : Int
deriving DecidableEq, Repr

/-- An entry of the unmatched_bills deque: dict with keys date, amount,
matched. -/
structure Bill where
  date : Int
  amount : Int
  matched : Int
deriving DecidableEq, Repr

/-- An entry of the unmatched_advances deque: dict with keys date, amount. -/
structure Adv where
  date : Int
  amount : Int
deriving DecidableEq, Repr

/-- The two FIFO queues maintained by the reconciliation loop of
calculate_creditor_aging_and_43b. -/
structure RState where
  bills : List Bill
  advances : List Adv
deriving DecidableEq, Repr

/-- A pending invoice as built after the aging pass: dict with keys date,
amount, remaining, and after initialisation for the post-cutoff allocator
also paid_amount_after_cutoff and paid_date_after_cutoff. -/
structure PendInv where
  date : Int
  amount : Int
  remaining : Int
  paidAmt : Int
  paidDate : Option Int
deriving DecidableEq, Repr

/-- A post-cutoff payment: dict with keys date, amount_remaining. -/
structure Pay where
  date : Int
  amount : Int
deriving DecidableEq, Repr

/-- One row of the MSME mapping after the column rename at the top of
calculate_creditor_aging_and_43b.  A field is none when the corresponding
column is absent from the uploaded table, in which case the source reads it
through r.get(column, default empty string). -/
structure MsmeRow where
  supplier : String
  registered : Option String
  category : Option String
  btype : Option String
deriving DecidableEq, Repr

/-- One row of the invoice-level aging log (log_details). -/
structure LogRow where
  party : String
  invoiceDate : Int
  invoiceAmount : Int
  matchedAmount : Int
  unpaidAmount : Int
  age : Int
  bucket : String
  remarks : String
deriving DecidableEq, Repr

/-- One row of the per-party aging summary (aging_summary). -/
structure SummaryRow where
  party : String
  totalOutstanding : Int
  b0to45 : Int
  b46to60 : Int
  b61to90 : Int
  over90 : Int
  advanceToSupplier : Int
deriving DecidableEq, Repr

/-- One row of the 43B(h) disallowance log (disallow_43b). -/
structure DisRow where
  party : String
  invoiceDate : Int
  invoiceAmount : Int
  unpaidAfter : Int
  paidAmtReport : Int
  paidDateAfter : Option Int
  within45 : String
  disallowed : String
  exemptionApplied : String
  exemptionReason : String
deriving DecidableEq, Repr

/-- The three tables returned by calculate_creditor_aging_and_43b. -/
structure EngineOut where
  aging : List SummaryRow
  fifoLog : List LogRow
  dis43b : List DisRow
deriving DecidableEq, Repr

/-- Model of Python str.lower (ASCII case folding suffices for the strings
this program compares). -/
def lowerStr (s : String) : String := ⟨s.data.map Char.toLower⟩

/-- Model of Python str.strip: drop leading and trailing whitespace. -/
def trimStr (s : String) : String :=
  ⟨((s.data.dropWhile Char.isWhitespace).reverse.dropWhile Char.isWhitespace).reverse⟩

/-- Auxiliary: the first list is an initial segment of the second. -/
def leadsList : List Char → List Char → Bool
  | [], _ => true
  | _ :: _, [] => false
  | a :: l, b :: m => a == b && leadsList l m

/-- Model of Python str.startswith. -/
def startsWithStr (s pat : String) : Bool := leadsList pat.data s.data

/-- Auxiliary: the needle occurs as a contiguous run inside the haystack. -/
def containsSub : List Char → List Char → Bool
  | [], needle => needle.isEmpty
  | c :: t, needle => leadsList needle (c :: t) || containsSub t needle

/-- Model of the Python substring test (needle in haystack). -/
def strContains (hay needle : String) : Bool := containsSub hay.data needle.data

/-- Strict lexicographic order on character lists, the order Python uses to
compare strings. -/
def lexLtB : List Char → List Char → Bool
  | [], [] => false
  | [], _ :: _ => true
  | _ :: _, [] => false
  | a :: l, b :: m => if a < b then true else if a = b then lexLtB l m else false

/-- Model of Python string comparison a < b. -/
def strLtB (a b : String) : Bool := lexLtB a.data b.data

/-- Reading of an exemption-map attribute in is_exempt:
str(r.get(column, empty)).strip().lower(). -/
def attrStr (o : Option String) : String := lowerStr (trimStr (o.getD ""))

/-- The row filter of the exemption lookup:
msme_map[Supplier Name].str.lower() == str(party_name).strip().lower(). -/
def supplierMatches (party : String) (r : MsmeRow) : Bool :=
  lowerStr r.supplier == lowerStr (trimStr party)

/-- Embedding of is_exempt (app.py lines 109-130, identical in app_try_1.py
lines 121-135).  row.iloc[0] on the filtered frame is the first matching row,
hence List.find?. -/
def isExempt (msmeMap : List MsmeRow) (partyName : String) : Bool × String :=
  match msmeMap.find? (supplierMatches partyName) with
  | none => (false, "")
  | some r =>
    let reg := attrStr r.registered
    let cat := attrStr r.category
    let bt := attrStr r.btype
    if reg == "no" || reg == "n" || reg == "false" || reg == "0" || reg == "" then
      (true, "Exempt: Non-MSME registered")
    else if cat == "medium" then
      (true, "Exempt: Medium category")
    else if strContains bt "trader" then
      (true, "Exempt: Trader")
    else
      (false, "")

/-- The supplier-name normalisation applied to the map on entry to the
engine: msme_map[Supplier Name] = ...astype(str).str.strip(). -/
def normMap (m : List MsmeRow) : List MsmeRow :=
  m.map (fun r => { r with supplier := trimStr r.supplier })

/-- Unpaid remainder of a bill: bill[amount] - bill[matched]. -/
def billRemaining (b : Bill) : Int := b.amount - b.matched

/-- The inner while loop of the debit branch (app.py lines 150-157): match a
payment amount against the open-bill queue, oldest first; a bill is removed
exactly when its matched amount reaches its amount.  Returns the new queue
and the unmatched remainder of the payment.  When a bill is not removed the
remainder is exhausted, so the loop exits; the recursion mirrors that. -/
def matchDebit : Int → List Bill → List Bill × Int
  | amt, [] => ([], amt)
  | amt, b :: bs =>
    if amt ≤ 0 then (b :: bs, amt)
    else
      let avail := b.amount - b.matched
      let toMatch := min avail amt
      let b2 : Bill := { b with matched := b.matched + toMatch }
      if b2.matched = b2.amount then matchDebit (amt - toMatch) bs
      else (b2 :: bs, amt - toMatch)

/-- The inner while loop of the credit branch (app.py lines 163-169): consume
a new bill amount against the open-advance queue, oldest first; an advance is
removed when its amount drops to at most zero.  Returns the new queue and the
unconsumed remainder of the bill. -/
def matchCredit : Int → List Adv → List Adv × Int
  | amt, [] => ([], amt)
  | amt, a :: rest =>
    if amt ≤ 0 then (a :: rest, amt)
    else
      let toMatch := min amt a.amount
      let a2 : Adv := { a with amount := a.amount - toMatch }
      if a2.amount ≤ 0 then matchCredit (amt - toMatch) rest
      else (a2 :: rest, amt - toMatch)

/-- One iteration of the reconciliation loop (app.py lines 143-171).  Note
the source uses if / elif: when debit > 0 and the date is on or before the
cutoff, the credit side of the same row is never examined. -/
def reconStep (cutoff : Int) (s : RState) (t : Txn) : RState :=
  if 0 < t.debit ∧ t.date ≤ cutoff then
    let r := matchDebit t.debit s.bills
    { bills := r.1,
      advances := if 0 < r.2 then s.advances ++ [⟨t.date, r.2⟩] else s.advances }
  else if 0 < t.credit ∧ t.date ≤ cutoff then
    let r := matchCredit t.credit s.advances
    { bills := if 0 < r.2 then s.bills ++ [⟨t.date, r.2, 0⟩] else s.bills,
      advances := r.1 }
  else s

/-- The reconciliation phase over one party group, in date order. -/
def reconcile (cutoff : Int) (txns : List Txn) : RState :=
  txns.foldl (reconStep cutoff) ⟨[], []⟩

/-- Aging bucket assignment (app.py lines 183-190). -/
def bucketOf (age : Int) : String :=
  if age ≤ 45 then "0-45"
  else if age ≤ 60 then "46-60"
  else if age ≤ 90 then "61-90"
  else ">90"

/-- The bills the aging pass keeps: unpaid = amount - matched > 0 (the loop
skips bills with unpaid <= 0). -/
def openBills (bills : List Bill) : List Bill :=
  bills.filter (fun b => decide (0 < billRemaining b))

/-- The log_details rows appended for one party (app.py lines 193-202). -/
def logRowsOf (cutoff : Int) (party : String) (bills : List Bill) : List LogRow :=
  (openBills bills).map (fun b =>
    { party := party
      invoiceDate := b.date
      invoiceAmount := b.amount
      matchedAmount := b.matched
      unpaidAmount := billRemaining b
      age := cutoff - b.date
      bucket := bucketOf (cutoff - b.date)
      remarks := "" })

/-- Total unpaid amount accumulated into one aging bucket. -/
def bucketTotal (cutoff : Int) (bills : List Bill) (name : String) : Int :=
  (((openBills bills).filter (fun b => bucketOf (cutoff - b.date) == name)).map
    billRemaining).sum

/-- Sum of the open advances of a party (advance_amount, app.py line 173). -/
def sumAdv (advs : List Adv) : Int := (advs.map (·.amount)).sum

/-- Sum of unpaid remainders of a bill queue. -/
def sumRem (bills : List Bill) : Int := (bills.map billRemaining).sum

/-- The aging_summary row of one party (app.py lines 269-275). -/
def summaryOf (cutoff : Int) (party : String) (s : RState) : SummaryRow :=
  { party := party
    totalOutstanding :=
      bucketTotal cutoff s.bills "0-45" + bucketTotal cutoff s.bills "46-60" +
        bucketTotal cutoff s.bills "61-90" + bucketTotal cutoff s.bills ">90"
    b0to45 := bucketTotal cutoff s.bills "0-45"
    b46to60 := bucketTotal cutoff s.bills "46-60"
    b61to90 := bucketTotal cutoff s.bills "61-90"
    over90 := bucketTotal cutoff s.bills ">90"
    advanceToSupplier := sumAdv s.advances }

/-- The pending_invoices list (app.py lines 204-208 and 216-218): one record
per open bill, remaining initialised to the unpaid amount, paid amount zero
and paid date None. -/
def pendingOf (bills : List Bill) : List PendInv :=
  (openBills bills).map (fun b =>
    { date := b.date
      amount := b.amount
      remaining := billRemaining b
      paidAmt := 0
      paidDate := none })

/-- Date order on post-cutoff payments, the key of
payments_after_cutoff.sort. -/
def payLe (a b : Pay) : Prop := a.date ≤ b.date

instance : DecidableRel payLe := fun a b => by unfold payLe; infer_instance

/-- The payments_after_cutoff list (app.py lines 210-214): debit rows
strictly after the cutoff, sorted by date (Python list.sort is stable). -/
def paysOf (cutoff : Int) (group : List Txn) : List Pay :=
  List.insertionSort payLe
    ((group.filter (fun t => decide (0 < t.debit) && decide (cutoff < t.date))).map
      (fun t => ⟨t.date, t.debit⟩))

/-- The inner loop of the post-cutoff allocator (app.py lines 223-232) for a
single payment: scan the pending invoices oldest first, break when the
payment is exhausted, skip invoices with nothing remaining, and on each
allocation overwrite the paid date of the invoice with the payment date.
Returns the updated invoice list and the unallocated remainder. -/
def allocPay (payDate : Int) : Int → List PendInv → List PendInv × Int
  | payRem, [] => ([], payRem)
  | payRem, i :: rest =>
    if payRem ≤ 0 then (i :: rest, payRem)
    else if i.remaining ≤ 0 then
      let r := allocPay payDate payRem rest
      (i :: r.1, r.2)
    else
      let alloc := min i.remaining payRem
      let i2 : PendInv :=
        { i with
          remaining := i.remaining - alloc
          paidAmt := i.paidAmt + alloc
          paidDate := some payDate }
      let r := allocPay payDate (payRem - alloc) rest
      (i2 :: r.1, r.2)

/-- The post-cutoff allocator of app.py (lines 220-232), which skips a
payment whose amount_remaining is not positive before entering the inner
loop. -/
def allocAll_app (pays : List Pay) (invs : List PendInv) : List PendInv :=
  pays.foldl (fun acc p => if p.amount ≤ 0 then acc else (allocPay p.date p.amount acc).1) invs

/-- The post-cutoff allocator of app_try_1.py (lines 199-207), which has no
such guard on the payment before the inner loop. -/
def allocAll_try (pays : List Pay) (invs : List PendInv) : List PendInv :=
  pays.foldl (fun acc p => (allocPay p.date p.amount acc).1) invs

/-- deadline = invoice date + 45 days (app.py line 239). -/
def deadlineOf (inv : PendInv) : Int := inv.date + 45

/-- The Within 45 Days determination of app.py (lines 241-244): Yes only if
the paid amount after cutoff reached the ORIGINAL invoice amount and the
recorded paid date exists and is on or before the deadline. -/
def within45_app (inv : PendInv) : String :=
  if inv.amount ≤ inv.paidAmt then
    match inv.paidDate with
    | some d => if d ≤ deadlineOf inv then "Yes" else "No"
    | none => "No"
  else "No"

/-- The Within 45 Days determination of app_try_1.py (line 212): Yes whenever
a paid date is recorded and is on or before the deadline, with no check that
the invoice was fully paid. -/
def within45_try (inv : PendInv) : String :=
  match inv.paidDate with
  | some d => if d ≤ deadlineOf inv then "Yes" else "No"
  | none => "No"

/-- One disallow_43b row (app.py lines 246-267, app_try_1.py lines 213-227),
parameterized by the Within 45 Days determination, the only point where the
two files differ.  When the party is exempt the field is overwritten with
Exempt and the invoice is never disallowed. -/
def disRowFor (w45 : PendInv → String) (msmeMap : List MsmeRow) (party : String) (inv : PendInv) :
    DisRow :=
  let within := w45 inv
  let e := isExempt msmeMap party
  if e.1 then
    { party := party
      invoiceDate := inv.date
      invoiceAmount := inv.amount
      unpaidAfter := inv.remaining
      paidAmtReport := min inv.paidAmt inv.amount
      paidDateAfter := inv.paidDate
      within45 := "Exempt"
      disallowed := "No"
      exemptionApplied := "Yes"
      exemptionReason := e.2 }
  else
    { party := party
      invoiceDate := inv.date
      invoiceAmount := inv.amount
      unpaidAfter := inv.remaining
      paidAmtReport := min inv.paidAmt inv.amount
      paidDateAfter := inv.paidDate
      within45 := within
      disallowed := if within == "Yes" then "No" else "Yes"
      exemptionApplied := "No"
      exemptionReason := e.2 }

/-- The disallowance rows of one party. -/
def disRowsOf (w45 : PendInv → String) (msmeMap : List MsmeRow) (party : String)
    (invs : List PendInv) : List DisRow :=
  invs.map (disRowFor w45 msmeMap party)

/-- Python string order as a relation on party names, for the groupby key
order. -/
def nameLe (a b : String) : Prop := strLtB a b = true ∨ a = b

instance : DecidableRel nameLe := fun a b => by unfold nameLe; infer_instance

/-- The party keys of df.groupby(Party): distinct party names in ascending
order. -/
def partyNames (df : List Txn) : List String :=
  (List.insertionSort nameLe (df.map (·.party))).dedup

/-- Date order on transactions, the key of group.sort_values(Date). -/
def dateLe (a b : Txn) : Prop := a.date ≤ b.date

instance : DecidableRel dateLe := fun a b => by unfold dateLe; infer_instance

/-- The rows of one party group, sorted by date. -/
def groupOf (df : List Txn) (p : String) : List Txn :=
  List.insertionSort dateLe (df.filter (fun t => t.party == p))

/-- The per-party pipeline of app.py: reconcile, age, allocate post-cutoff
payments, classify. -/
def processParty_app (cutoff : Int) (msmeMap : List MsmeRow) (party : String)
    (group : List Txn) : SummaryRow × List LogRow × List DisRow :=
  let s := reconcile cutoff group
  let invs := allocAll_app (paysOf cutoff group) (pendingOf s.bills)
  (summaryOf cutoff party s, logRowsOf cutoff party s.bills,
    disRowsOf within45_app msmeMap party invs)

/-- The per-party pipeline of app_try_1.py. -/
def processParty_try (cutoff : Int) (msmeMap : List MsmeRow) (party : String)
    (group : List Txn) : SummaryRow × List LogRow × List DisRow :=
  let s := reconcile cutoff group
  let invs := allocAll_try (paysOf cutoff group) (pendingOf s.bills)
  (summaryOf cutoff party s, logRowsOf cutoff party s.bills,
    disRowsOf within45_try msmeMap party invs)

/-- calculate_creditor_aging_and_43b of app.py (lines 94-277). -/
def engine_app (df : List Txn) (cutoff : Int) (msmeMap0 : List MsmeRow) : EngineOut :=
  let msmeMap := normMap msmeMap0
  let ps := partyNames df
  { aging := ps.map (fun p => (processParty_app cutoff msmeMap p (groupOf df p)).1)
    fifoLog := (ps.map (fun p => (processParty_app cutoff msmeMap p (groupOf df p)).2.1)).flatten
    dis43b := (ps.map (fun p => (processParty_app cutoff msmeMap p (groupOf df p)).2.2)).flatten }

/-- calculate_creditor_aging_and_43b of app_try_1.py (lines 113-230). -/
def engine_try (df : List Txn) (cutoff : Int) (msmeMap0 : List MsmeRow) : EngineOut :=
  let msmeMap := normMap msmeMap0
  let ps := partyNames df
  { aging := ps.map (fun p => (processParty_try cutoff msmeMap p (groupOf df p)).1)
    fifoLog := (ps.map (fun p => (processParty_try cutoff msmeMap p (groupOf df p)).2.1)).flatten
    dis43b := (ps.map (fun p => (processParty_try cutoff msmeMap p (groupOf df p)).2.2)).flatten }

/-- A numeric cell of the raw ledger grid as float(cell) sees it: NaN
(missing, treated as 0.0), unparseable (float raises, row dropped), or a
number. -/
inductive NumCell where
  | na
  | bad
  | val (q : Int)
deriving DecidableEq, Repr

/-- One raw row of the uploaded ledger grid as parse_ledger_df reads it.
c0text is str(row[0]) with NaN rendered as the empty string; c0date is the
result of pd.to_datetime(row[0], errors coerce, dayfirst) — none for NaT,
otherwise the parsed day number (the day-before-month external parser is
abstracted as data); c1 is row[1] (none for NaN); c5 and c6 are the debit
and credit cells. -/
structure RawRow where
  c0text : String
  c0date : Option Int
  c1 : Option String
  c5 : NumCell
  c6 : NumCell
deriving DecidableEq, Repr

/-- Day number of 2000-01-01 (days since 1970-01-01), the lower bound applied
to parsed transaction dates. -/
def y2000 : Int := 10957

/-- float(cell) with the NaN-to-zero default of parse_ledger_df. -/
def numOk : NumCell → Option Int
  | .na => some 0
  | .bad => none
  | .val q => some q

/-- The party-marker test: str(row[0]).strip().lower().startswith(ledger:). -/
def markerP (r : RawRow) : Bool := startsWithStr (lowerStr (trimStr r.c0text)) "ledger:"

/-- The party name taken from a marker row: str(row[1]).strip() when
present, otherwise Unknown. -/
def markerName (r : RawRow) : String :=
  match r.c1 with
  | some s => trimStr s
  | none => "Unknown"

/-- The current-party state after a row: a marker row replaces it, any other
row keeps it. -/
def nextParty (cur : Option String) (r : RawRow) : Option String :=
  if markerP r then some (markerName r) else cur

/-- The records contributed by one non-marker row (app.py lines 80-89).  The
guard `if current_party:` is Python truthiness, so an empty party name (a
marker row whose name cell held only whitespace) behaves like no marker at
all.  A row is kept only when the date cell parsed, the date is on or after
2000-01-01 and both numeric cells convert; otherwise it is silently
dropped. -/
def rowTxns (cur : Option String) (r : RawRow) : List Txn :=
  if markerP r then []
  else
    match cur with
    | none => []
    | some p =>
      if p = "" then []
      else
        match r.c0date with
        | none => []
        | some d =>
          if d < y2000 then []
          else
            match numOk r.c5, numOk r.c6 with
            | some dq, some cq => [⟨p, d, dq, cq⟩]
            | _, _ => []

/-- The row loop of parse_ledger_df, threading the current party and the
accumulated records. -/
def parseAccum : List RawRow → Option String → List Txn → List Txn
  | [], _, acc => acc
  | r :: rest, cur, acc => parseAccum rest (nextParty cur r) (acc ++ rowTxns cur r)

/-- The records list of parse_ledger_df before the final sort. -/
def parseRecords (rows : List RawRow) : List Txn := parseAccum rows none []

/-- The current party after scanning a list of rows. -/
def curPartyAfter (rows : List RawRow) : Option String := rows.foldl nextParty none

/-- The sort key of data.sort_values(by = [Party, Date]). -/
def txnLe (a b : Txn) : Prop :=
  strLtB a.party b.party = true ∨ (a.party = b.party ∧ a.date ≤ b.date)

instance : DecidableRel txnLe := fun a b => by unfold txnLe; infer_instance

/-- parse_ledger_df of app.py (lines 72-92), identical in app_try_1.py
(lines 69-89): accumulate records, then sort by (Party, Date). -/
def parse_ledger (rows : List RawRow) : List Txn :=
  List.insertionSort txnLe (parseRecords rows)

/-- The required columns of the MSME mapping upload (app.py line 397). -/
def requiredCols : List String :=
  ["Supplier Name", "Registered (Yes/No)", "Category (Micro/Small/Medium)",
    "Business Type (Trader/Manufacturer/Service Provider)"]

/-- missing = [c for c in required_cols if c not in msme_df.columns]. -/
def missingColsOf (cols : List String) : List String :=
  requiredCols.filter (fun c => !(cols.contains c))

/-- Outcome of handling an uploaded MSME mapping: the mapping stored for the
subsequent engine run, and the validation error shown, if any. -/
structure UploadResult where
  stored : List MsmeRow
  errorMsg : Option String
deriving DecidableEq, Repr

/-- The MSME upload handler of app.py (lines 390-407): when a required
column is missing an error is surfaced and the previously stored mapping is
left untouched, so the bad upload never reaches the engine; otherwise the
upload (with supplier names stripped) replaces the stored mapping. -/
def uploadMsme_app (cols : List String) (uploaded prev : List MsmeRow) : UploadResult :=
  if missingColsOf cols ≠ [] then
    ⟨prev, some "Uploaded MSME file is missing columns. Please use the template."⟩
  else
    ⟨normMap uploaded, none⟩

/-- The MSME upload handler of app_try_1.py (lines 294-300): the upload is
stored unconditionally, with no column validation and no error. -/
def uploadMsme_try (uploaded : List MsmeRow) : UploadResult := ⟨uploaded, none⟩

/-- Balance carried by a reconciliation state: open invoice remainders minus
open advances. -/
def balanceOf (s : RState) : Int := sumRem s.bills - sumAdv s.advances

/-- Total credit over the transactions dated on or before the cutoff. -/
def creditTotal (cutoff : Int) (txns : List Txn) : Int :=
  ((txns.filter (fun t => decide (t.date ≤ cutoff))).map (·.credit)).sum

/-- Total debit over the transactions dated on or before the cutoff. -/
def debitTotal (cutoff : Int) (txns : List Txn) : Int :=
  ((txns.filter (fun t => decide (t.date ≤ cutoff))).map (·.debit)).sum

/-- The relation between corresponding disallowance rows of the two entry
points: either the rows agree, or the row is for a non-exempt invoice that
app.py reports as not within 45 days and disallowed while app_try_1.py
reports it as within 45 days and not disallowed, all other fields equal. -/
def disRel (a b : DisRow) : Prop :=
  a = b ∨
    (a.within45 = "No" ∧ b.within45 = "Yes" ∧ a.disallowed = "Yes" ∧ b.disallowed = "No" ∧
      a.exemptionApplied = "No" ∧ b.exemptionApplied = "No" ∧
      a.party = b.party ∧ a.invoiceDate = b.invoiceDate ∧ a.invoiceAmount = b.invoiceAmount ∧
      a.unpaidAfter = b.unpaidAfter ∧ a.paidAmtReport = b.paidAmtReport ∧
      a.paidDateAfter = b.paidDateAfter ∧ a.exemptionReason = b.exemptionReason)

/-! Helper lemmas. -/

theorem find?_append_of_none {α : Type} (p : α → Bool) :
    ∀ (l1 l2 : List α), (∀ x ∈ l1, p x = false) → (l1 ++ l2).find? p = l2.find? p := by
  intro l1 l2 h
  induction l1 with
  | nil => rfl
  | cons a l ih =>
    have ha : p a = false := h a (by simp)
    simp only [List.cons_append, List.find?, ha]
    exact ih (fun x hx => h x (by simp [hx]))

theorem find?_cons_true {α : Type} (p : α → Bool) (a : α) (l : List α) (h : p a = true) :
    (a :: l).find? p = some a := by
  simp [List.find?, h]

/-! Claims C1, C4, C6, C9. -/

/-- C1: for every open invoice at cutoff, the disallowance evaluator (app.py,
before any exemption override, i.e. for a non-exempt party) reports
Within 45 Days = Yes iff the invoice was fully paid after cutoff
(paid amount after cutoff at least the original amount) and the recorded
paid date is at most invoiceDate + 45 days; an invoice only partially paid
after cutoff is always reported No. -/
theorem C1_within45_full_payment_iff (msmeMap : List MsmeRow) (party : String)
    (inv : PendInv) (hne : (isExempt msmeMap party).1 = false) :
    ((disRowFor within45_app msmeMap party inv).within45 = "Yes" ↔
      (inv.amount ≤ inv.paidAmt ∧ ∃ d, inv.paidDate = some d ∧ d ≤ inv.date + 45)) ∧
    (inv.paidAmt < inv.amount → (disRowFor within45_app msmeMap party inv).within45 = "No") := by
  have hNY : ("No" : String) ≠ "Yes" := by decide
  have hrow : (disRowFor within45_app msmeMap party inv).within45 = within45_app inv := by
    simp [disRowFor, hne]
  rw [hrow]
  constructor
  · constructor
    · intro hy
      unfold within45_app at hy
      by_cases hfull : inv.amount ≤ inv.paidAmt
      · rw [if_pos hfull] at hy
        rcases hd : inv.paidDate with _ | d
        · rw [hd] at hy
          exact absurd hy hNY
        · rw [hd] at hy
          by_cases hdl : d ≤ deadlineOf inv
          · exact ⟨hfull, d, rfl, hdl⟩
          · have hy2 : (if d ≤ deadlineOf inv then ("Yes" : String) else "No") = "Yes" := hy
            rw [if_neg hdl] at hy2
            exact absurd hy2 hNY
      · rw [if_neg hfull] at hy
        exact absurd hy hNY
    · rintro ⟨hfull, d, hd, hdl⟩
      unfold within45_app
      rw [if_pos hfull, hd]
      show (if d ≤ deadlineOf inv then ("Yes" : String) else "No") = "Yes"
      exact if_pos hdl
  · intro hpart
    unfold within45_app
    rw [if_neg (not_le.mpr hpart)]

/-- C1 witness: the on-time example of the spec, an invoice of 100 dated
day 0, fully paid on day 40 (deadline day 45), for an unlisted party. -/
theorem C1_within45_full_payment_iff_witness :
    (isExempt [] "P").1 = false ∧
      (disRowFor within45_app [] "P" ⟨0, 100, 0, 100, some 40⟩).within45 = "Yes" :=
  ⟨by decide,
    (C1_within45_full_payment_iff [] "P" ⟨0, 100, 0, 100, some 40⟩ (by decide)).1.mpr
      ⟨by decide, 40, rfl, by decide⟩⟩

/-- C4 counterexample: a transaction with debit = 100 and credit = 100 dated
at the cutoff is NOT treated as two independent one-sided transactions: the
engine (if / elif) processes only the debit side, producing an open advance
of 100, while the two separate one-sided rows would cancel to an empty
state. -/
theorem C4_two_sided_cex :
    reconcile 0 [⟨"A", 0, 100, 100⟩] = ⟨[], [⟨0, 100⟩]⟩ ∧
    reconcile 0 [⟨"A", 0, 100, 0⟩, ⟨"A", 0, 0, 100⟩] = ⟨[], []⟩ ∧
    reconcile 0 [⟨"A", 0, 100, 100⟩] ≠ reconcile 0 [⟨"A", 0, 100, 0⟩, ⟨"A", 0, 0, 100⟩] := by
  refine ⟨by decide, by decide, by decide⟩

/-- C4 amended: a transaction with both debit and credit non-zero dated on or
before the cutoff has only its debit side processed; its credit side is
ignored (the else-if branch is never reached), so the row behaves exactly
like the corresponding debit-only row. -/
theorem C4_two_sided_debit_only (cutoff : Int) (s : RState) (t : Txn)
    (hd : 0 < t.debit) (hc : t.date ≤ cutoff) :
    reconStep cutoff s t = reconStep cutoff s { t with credit := 0 } := by
  simp only [reconStep]
  rw [if_pos ⟨hd, hc⟩, if_pos (⟨hd, hc⟩ : 0 < (Txn.mk t.party t.date t.debit 0).debit ∧
    (Txn.mk t.party t.date t.debit 0).date ≤ cutoff)]

/-- C4 witness: the amended statement evaluated on the counterexample
transaction. -/
theorem C4_two_sided_debit_only_witness :
    reconStep 0 ⟨[], []⟩ ⟨"A", 0, 100, 100⟩ = reconStep 0 ⟨[], []⟩ ⟨"A", 0, 100, 0⟩ :=
  C4_two_sided_debit_only 0 ⟨[], []⟩ ⟨"A", 0, 100, 100⟩ (by decide) (by decide)

/-- C6: the first matching exemption rule wins: whenever the looked-up row
has a registered value in the set no, n, false, 0, empty, the result is
exempt with reason Non-MSME registered, whatever the category and business
type say. -/
theorem C6_rule1_precedence (msmeMap : List MsmeRow) (party : String) (r : MsmeRow)
    (hfind : msmeMap.find? (supplierMatches party) = some r)
    (hreg : attrStr r.registered = "no" ∨ attrStr r.registered = "n" ∨
      attrStr r.registered = "false" ∨ attrStr r.registered = "0" ∨
      attrStr r.registered = "") :
    isExempt msmeMap party = (true, "Exempt: Non-MSME registered") := by
  rcases hreg with h | h | h | h | h <;> simp [isExempt, hfind, h]

/-- C6 witness: a supplier with registered No AND category Medium (and even
business type Trader) is reported exempt with reason Non-MSME registered. -/
theorem C6_rule1_precedence_witness :
    isExempt [⟨"Acme", some "No", some "Medium", some "Trader"⟩] "Acme" =
      (true, "Exempt: Non-MSME registered") :=
  C6_rule1_precedence [⟨"Acme", some "No", some "Medium", some "Trader"⟩] "Acme"
    ⟨"Acme", some "No", some "Medium", some "Trader"⟩ (by decide) (Or.inl (by decide))

/-- C9: when several map rows match the party name, the first matching row
alone determines the exemption result; every later row, duplicate or not, is
ignored. -/
theorem C9_first_matching_row_wins (m1 : List MsmeRow) (r : MsmeRow) (m2 : List MsmeRow)
    (party : String) (h1 : ∀ r2 ∈ m1, supplierMatches party r2 = false)
    (h2 : supplierMatches party r = true) :
    isExempt (m1 ++ r :: m2) party = isExempt [r] party := by
  unfold isExempt
  rw [find?_append_of_none _ m1 (r :: m2) h1, find?_cons_true _ r m2 h2,
    find?_cons_true _ r [] h2]

/-- C9 witness: a map with a first matching row that is not exempt followed
by a duplicate row that would be exempt reports not exempt, while the
duplicate alone would report exempt. -/
theorem C9_first_matching_row_wins_witness :
    isExempt [⟨"Other", some "Yes", none, none⟩, ⟨"Acme", some "Yes", some "Micro", some "Mfg"⟩,
      ⟨"Acme", some "No", none, none⟩] "Acme" = (false, "") ∧
    isExempt [⟨"Acme", some "No", none, none⟩] "Acme" =
      (true, "Exempt: Non-MSME registered") :=
  ⟨(C9_first_matching_row_wins [⟨"Other", some "Yes", none, none⟩]
      ⟨"Acme", some "Yes", some "Micro", some "Mfg"⟩ [⟨"Acme", some "No", none, none⟩] "Acme"
      (by decide) (by decide)).trans (by decide),
    by decide⟩

/-! Lemmas and claims C5 and C3. -/

theorem allocPay_get? (payDate : Int) :
    ∀ (payRem : Int) (invs : List PendInv) (j : Nat) (a : PendInv),
      invs[j]? = some a →
      ∃ b, (allocPay payDate payRem invs).1[j]? = some b ∧
        (b = a ∨ (b.remaining < a.remaining ∧ b.paidDate = some payDate)) := by
  intro payRem invs
  induction invs generalizing payRem with
  | nil => intro j a h; simp at h
  | cons i rest ih =>
    intro j a h
    by_cases h0 : payRem ≤ 0
    · refine ⟨a, ?_, Or.inl rfl⟩
      simpa [allocPay, h0] using h
    · by_cases h1 : i.remaining ≤ 0
      · cases j with
        | zero =>
          have h2 : i = a := by simpa using h
          refine ⟨i, ?_, Or.inl h2⟩
          simp [allocPay, h0, h1]
        | succ j =>
          have h2 : rest[j]? = some a := by simpa using h
          obtain ⟨b, hb, hrel⟩ := ih payRem j a h2
          exact ⟨b, by simp [allocPay, h0, h1, hb], hrel⟩
      · cases j with
        | zero =>
          have h2 : i = a := by simpa using h
          refine ⟨{ i with
              remaining := i.remaining - min i.remaining payRem
              paidAmt := i.paidAmt + min i.remaining payRem
              paidDate := some payDate }, ?_, Or.inr ⟨?_, rfl⟩⟩
          · simp [allocPay, h0, h1]
          · have hm : 0 < min i.remaining payRem := lt_min (lt_of_not_le h1) (lt_of_not_le h0)
            rw [← h2]
            exact sub_lt_self _ hm
        | succ j =>
          have h2 : rest[j]? = some a := by simpa using h
          obtain ⟨b, hb, hrel⟩ := ih (payRem - min i.remaining payRem) j a h2
          exact ⟨b, by simp [allocPay, h0, h1, hb], hrel⟩

/-- C5: post-cutoff allocation is pure FIFO oldest-invoice-first: on the
spec example (invoices of 100, 200, 300 dated 0 < 10 < 20, one payment of
150 on day 30) the first invoice ends with remaining 0, the second loses
exactly 50 and the third is untouched; and appending one more payment to the
payment list changes the recorded paid date of an invoice to that payment
date exactly when the payment reduced the invoice, otherwise it keeps the
previous value — so the final paid date is the date of the LAST payment that
reduced the invoice. -/
theorem C5_fifo_allocation :
    (allocAll_app [⟨30, 150⟩] [⟨0, 100, 100, 0, none⟩, ⟨10, 200, 200, 0, none⟩,
        ⟨20, 300, 300, 0, none⟩] =
      [⟨0, 100, 0, 100, some 30⟩, ⟨10, 200, 150, 50, some 30⟩, ⟨20, 300, 300, 0, none⟩]) ∧
    ∀ (pays : List Pay) (p : Pay) (invs : List PendInv) (j : Nat) (a b : PendInv),
      (allocAll_app pays invs)[j]? = some a →
      (allocAll_app (pays ++ [p]) invs)[j]? = some b →
      b.remaining ≤ a.remaining ∧
        b.paidDate = if b.remaining < a.remaining then some p.date else a.paidDate := by
  refine ⟨by decide, ?_⟩
  intro pays p invs j a b ha hb
  have hstep : allocAll_app (pays ++ [p]) invs =
      (if p.amount ≤ 0 then allocAll_app pays invs
        else (allocPay p.date p.amount (allocAll_app pays invs)).1) := by
    simp [allocAll_app, List.foldl_append]
  by_cases h0 : p.amount ≤ 0
  · rw [hstep, if_pos h0, ha] at hb
    injection hb with hb2
    subst hb2
    exact ⟨le_refl _, by rw [if_neg (lt_irrefl _)]⟩
  · rw [hstep, if_neg h0] at hb
    obtain ⟨b2, hb2, hrel⟩ := allocPay_get? p.date p.amount (allocAll_app pays invs) j a ha
    rw [hb2] at hb
    injection hb with hbb
    subst hbb
    rcases hrel with rfl | ⟨hlt, hpd⟩
    · exact ⟨le_refl _, by rw [if_neg (lt_irrefl _)]⟩
    · exact ⟨le_of_lt hlt, by rw [if_pos hlt, hpd]⟩

/-- C5 witness: the step characterization applied to a single concrete
payment on a one-invoice list. -/
theorem C5_fifo_allocation_witness :
    (⟨0, 10, 3, 7, some 5⟩ : PendInv).remaining ≤ (⟨0, 10, 10, 0, none⟩ : PendInv).remaining ∧
      (⟨0, 10, 3, 7, some 5⟩ : PendInv).paidDate =
        if (⟨0, 10, 3, 7, some 5⟩ : PendInv).remaining <
            (⟨0, 10, 10, 0, none⟩ : PendInv).remaining then some (5 : Int) else none :=
  C5_fifo_allocation.2 [] ⟨5, 7⟩ [⟨0, 10, 10, 0, none⟩] 0 ⟨0, 10, 10, 0, none⟩
    ⟨0, 10, 3, 7, some 5⟩ (by decide) (by decide)

theorem matchDebit_sum (amt : Int) (bills : List Bill) :
    sumRem (matchDebit amt bills).1 = sumRem bills - amt + (matchDebit amt bills).2 := by
  induction bills generalizing amt with
  | nil => simp [matchDebit, sumRem]
  | cons b bs ih =>
    by_cases h0 : amt ≤ 0
    · simp [matchDebit, h0]
    · by_cases hpop : b.matched + min (b.amount - b.matched) amt = b.amount
      · have hrw : matchDebit amt (b :: bs) =
            matchDebit (amt - min (b.amount - b.matched) amt) bs := by
          simp [matchDebit, h0, hpop]
        rw [hrw, ih]
        have hcons : sumRem (b :: bs) = (b.amount - b.matched) + sumRem bs := by
          simp [sumRem, billRemaining]
        omega
      · have hrw : matchDebit amt (b :: bs) =
            ({ b with matched := b.matched + min (b.amount - b.matched) amt } :: bs,
              amt - min (b.amount - b.matched) amt) := by
          simp [matchDebit, h0, hpop]
        rw [hrw]
        simp [sumRem, billRemaining]
        omega

theorem matchDebit_nonneg (amt : Int) (bills : List Bill) (h : 0 ≤ amt) :
    0 ≤ (matchDebit amt bills).2 := by
  induction bills generalizing amt with
  | nil => simpa [matchDebit]
  | cons b bs ih =>
    by_cases h0 : amt ≤ 0
    · simpa [matchDebit, h0]
    · have hle : min (b.amount - b.matched) amt ≤ amt := min_le_right _ _
      by_cases hpop : b.matched + min (b.amount - b.matched) amt = b.amount
      · have hrw : matchDebit amt (b :: bs) =
            matchDebit (amt - min (b.amount - b.matched) amt) bs := by
          simp [matchDebit, h0, hpop]
        rw [hrw]
        exact ih _ (by omega)
      · have hrw : (matchDebit amt (b :: bs)).2 = amt - min (b.amount - b.matched) amt := by
          simp [matchDebit, h0, hpop]
        rw [hrw]
        omega

theorem matchCredit_sum (amt : Int) (advs : List Adv) :
    sumAdv (matchCredit amt advs).1 = sumAdv advs - amt + (matchCredit amt advs).2 := by
  induction advs generalizing amt with
  | nil => simp [matchCredit, sumAdv]
  | cons a rest ih =>
    by_cases h0 : amt ≤ 0
    · simp [matchCredit, h0]
    · by_cases hpop : a.amount - min amt a.amount ≤ 0
      · have heq : min amt a.amount = a.amount :=
          le_antisymm (min_le_right _ _) (by omega)
        have hrw : matchCredit amt (a :: rest) =
            matchCredit (amt - min amt a.amount) rest := by
          simp [matchCredit, h0, hpop]
        rw [hrw, ih]
        have hcons : sumAdv (a :: rest) = a.amount + sumAdv rest := by simp [sumAdv]
        omega
      · have hrw : matchCredit amt (a :: rest) =
            ({ a with amount := a.amount - min amt a.amount } :: rest,
              amt - min amt a.amount) := by
          simp [matchCredit, h0, hpop]
        rw [hrw]
        simp [sumAdv]
        omega

theorem matchCredit_nonneg (amt : Int) (advs : List Adv) (h : 0 ≤ amt) :
    0 ≤ (matchCredit amt advs).2 := by
  induction advs generalizing amt with
  | nil => simpa [matchCredit]
  | cons a rest ih =>
    by_cases h0 : amt ≤ 0
    · simpa [matchCredit, h0]
    · have hle : min amt a.amount ≤ amt := min_le_left _ _
      by_cases hpop : a.amount - min amt a.amount ≤ 0
      · have hrw : matchCredit amt (a :: rest) =
            matchCredit (amt - min amt a.amount) rest := by
          simp [matchCredit, h0, hpop]
        rw [hrw]
        exact ih _ (by omega)
      · have hrw : (matchCredit amt (a :: rest)).2 = amt - min amt a.amount := by
          simp [matchCredit, h0, hpop]
        rw [hrw]
        omega

theorem sumAdv_append (l1 l2 : List Adv) : sumAdv (l1 ++ l2) = sumAdv l1 + sumAdv l2 := by
  simp [sumAdv]

theorem sumRem_append (l1 l2 : List Bill) : sumRem (l1 ++ l2) = sumRem l1 + sumRem l2 := by
  simp [sumRem]

theorem reconStep_balance (cutoff : Int) (s : RState) (t : Txn)
    (hd : 0 ≤ t.debit) (hc : 0 ≤ t.credit) (hx : ¬(0 < t.debit ∧ 0 < t.credit)) :
    balanceOf (reconStep cutoff s t) =
      balanceOf s + (if t.date ≤ cutoff then t.credit - t.debit else 0) := by
  by_cases hdb : 0 < t.debit ∧ t.date ≤ cutoff
  · have hc0 : t.credit = 0 := by
      by_cases hcc : 0 < t.credit
      · exact absurd ⟨hdb.1, hcc⟩ hx
      · omega
    have hrw : reconStep cutoff s t =
        { bills := (matchDebit t.debit s.bills).1,
          advances := if 0 < (matchDebit t.debit s.bills).2 then
            s.advances ++ [⟨t.date, (matchDebit t.debit s.bills).2⟩] else s.advances } := by
      simp [reconStep, hdb]
    rw [hrw]
    have hsum := matchDebit_sum t.debit s.bills
    have hnn := matchDebit_nonneg t.debit s.bills (le_of_lt hdb.1)
    by_cases hpos : 0 < (matchDebit t.debit s.bills).2
    · simp only [balanceOf, if_pos hpos, sumAdv_append, if_pos hdb.2]
      simp [sumAdv]
      omega
    · simp only [balanceOf, if_neg hpos, if_pos hdb.2]
      omega
  · by_cases hcr : 0 < t.credit ∧ t.date ≤ cutoff
    · have hd0 : t.debit = 0 := by
        by_cases hdd : 0 < t.debit
        · exact absurd ⟨hdd, hcr.2⟩ hdb
        · omega
      have hrw : reconStep cutoff s t =
          { bills := if 0 < (matchCredit t.credit s.advances).2 then
              s.bills ++ [⟨t.date, (matchCredit t.credit s.advances).2, 0⟩] else s.bills,
            advances := (matchCredit t.credit s.advances).1 } := by
        unfold reconStep
        rw [if_neg hdb, if_pos hcr]
      rw [hrw]
      have hsum := matchCredit_sum t.credit s.advances
      have hnn := matchCredit_nonneg t.credit s.advances (le_of_lt hcr.1)
      by_cases hpos : 0 < (matchCredit t.credit s.advances).2
      · simp only [balanceOf, if_pos hpos, sumRem_append, if_pos hcr.2]
        simp [sumRem, billRemaining]
        omega
      · simp only [balanceOf, if_neg hpos, if_pos hcr.2]
        omega
    · have hrw : reconStep cutoff s t = s := by
        simp [reconStep, hdb, hcr]
      rw [hrw]
      by_cases hdate : t.date ≤ cutoff
      · have hd0 : t.debit = 0 := by
          by_cases hdd : 0 < t.debit
          · exact absurd ⟨hdd, hdate⟩ hdb
          · omega
        have hc0 : t.credit = 0 := by
          by_cases hcc : 0 < t.credit
          · exact absurd ⟨hcc, hdate⟩ hcr
          · omega
        simp [hdate, hd0, hc0]
      · simp [hdate]

theorem creditTotal_cons (cutoff : Int) (t : Txn) (ts : List Txn) :
    creditTotal cutoff (t :: ts) =
      (if t.date ≤ cutoff then t.credit else 0) + creditTotal cutoff ts := by
  by_cases h : t.date ≤ cutoff <;> simp [creditTotal, List.filter_cons, h]

theorem debitTotal_cons (cutoff : Int) (t : Txn) (ts : List Txn) :
    debitTotal cutoff (t :: ts) =
      (if t.date ≤ cutoff then t.debit else 0) + debitTotal cutoff ts := by
  by_cases h : t.date ≤ cutoff <;> simp [debitTotal, List.filter_cons, h]

theorem reconcile_balance_aux (cutoff : Int) :
    ∀ (txns : List Txn) (s : RState),
      (∀ t ∈ txns, 0 ≤ t.debit ∧ 0 ≤ t.credit ∧ ¬(0 < t.debit ∧ 0 < t.credit)) →
      balanceOf (txns.foldl (reconStep cutoff) s) =
        balanceOf s + (creditTotal cutoff txns - debitTotal cutoff txns) := by
  intro txns
  induction txns with
  | nil => intro s _; simp [creditTotal, debitTotal]
  | cons t ts ih =>
    intro s h
    obtain ⟨h1, h2, h3⟩ := h t (by simp)
    have hstep := reconStep_balance cutoff s t h1 h2 h3
    have hrest := ih (reconStep cutoff s t) (fun u hu => h u (by simp [hu]))
    simp only [List.foldl_cons]
    rw [hrest, hstep, creditTotal_cons, debitTotal_cons]
    by_cases hdate : t.date ≤ cutoff <;> (simp [hdate]; try ring)

/-- C3 counterexample: a single transaction with debit 100 AND credit 30
dated at the cutoff breaks the balance invariant as stated: the engine
ignores the credit side (if / elif), leaving balance -100, while credits
minus debits over the transactions on or before the cutoff is -70. -/
theorem C3_balance_cex :
    balanceOf (reconcile 0 [⟨"A", 0, 100, 30⟩]) = -100 ∧
    creditTotal 0 [⟨"A", 0, 100, 30⟩] - debitTotal 0 [⟨"A", 0, 100, 30⟩] = -70 ∧
    balanceOf (reconcile 0 [⟨"A", 0, 100, 30⟩]) ≠
      creditTotal 0 [⟨"A", 0, 100, 30⟩] - debitTotal 0 [⟨"A", 0, 100, 30⟩] := by
  refine ⟨by decide, by decide, by decide⟩

/-- C3 amended: the balance invariant holds for every party whose
transactions all carry non-negative debit and credit with at most one of the
two positive (the shape the data model ascribes to real-world entries):
after reconciliation, the sum of open-invoice remainders minus the sum of
open advances equals total credits minus total debits over the transactions
dated on or before the cutoff.  A transaction with both sides positive (see
the counterexample) or a negative amount breaks it, because the engine
examines the credit side only when the debit side is not taken. -/
theorem C3_balance_invariant (cutoff : Int) (txns : List Txn)
    (h : ∀ t ∈ txns, 0 ≤ t.debit ∧ 0 ≤ t.credit ∧ ¬(0 < t.debit ∧ 0 < t.credit)) :
    sumRem (reconcile cutoff txns).bills - sumAdv (reconcile cutoff txns).advances =
      creditTotal cutoff txns - debitTotal cutoff txns := by
  have := reconcile_balance_aux cutoff txns ⟨[], []⟩ h
  simpa [reconcile, balanceOf, sumRem, sumAdv] using this

/-- C3 witness: the invariant evaluated on a small two-transaction ledger
(bill of 100 on day 0, payment of 30 on day 5, cutoff day 10). -/
theorem C3_balance_invariant_witness :
    sumRem (reconcile 10 [⟨"A", 0, 0, 100⟩, ⟨"A", 5, 30, 0⟩]).bills -
        sumAdv (reconcile 10 [⟨"A", 0, 0, 100⟩, ⟨"A", 5, 30, 0⟩]).advances =
      creditTotal 10 [⟨"A", 0, 0, 100⟩, ⟨"A", 5, 30, 0⟩] -
        debitTotal 10 [⟨"A", 0, 0, 100⟩, ⟨"A", 5, 30, 0⟩] ∧
    creditTotal 10 [⟨"A", 0, 0, 100⟩, ⟨"A", 5, 30, 0⟩] -
        debitTotal 10 [⟨"A", 0, 0, 100⟩, ⟨"A", 5, 30, 0⟩] = 70 :=
  ⟨C3_balance_invariant 10 [⟨"A", 0, 0, 100⟩, ⟨"A", 5, 30, 0⟩] (by decide), by decide⟩

/-! Lemmas and claim C2. -/

theorem forall₂_append_my {α β : Type} {R : α → β → Prop} :
    ∀ {l1 : List α} {l2 : List β} {l3 : List α} {l4 : List β},
      List.Forall₂ R l1 l2 → List.Forall₂ R l3 l4 → List.Forall₂ R (l1 ++ l3) (l2 ++ l4) := by
  intro l1 l2 l3 l4 h12 h34
  induction h12 with
  | nil => simpa
  | cons h _ ih => exact List.Forall₂.cons h ih

theorem forall₂_flatten_map {α β γ : Type} {R : β → γ → Prop} :
    ∀ (ps : List α) (f : α → List β) (g : α → List γ),
      (∀ p ∈ ps, List.Forall₂ R (f p) (g p)) →
      List.Forall₂ R ((ps.map f).flatten) ((ps.map g).flatten) := by
  intro ps f g h
  induction ps with
  | nil => simp
  | cons p ps ih =>
    simp only [List.map_cons, List.flatten_cons]
    exact forall₂_append_my (h p (by simp)) (ih (fun q hq => h q (by simp [hq])))

theorem forall₂_map_same {α β : Type} {R : β → β → Prop} :
    ∀ (l : List α) (f g : α → β), (∀ x ∈ l, R (f x) (g x)) →
      List.Forall₂ R (l.map f) (l.map g) := by
  intro l f g h
  induction l with
  | nil => simp
  | cons x xs ih =>
    simp only [List.map_cons]
    exact List.Forall₂.cons (h x (by simp)) (ih (fun y hy => h y (by simp [hy])))

theorem allocAll_eq (pays : List Pay) (invs : List PendInv)
    (h : ∀ p ∈ pays, 0 < p.amount) : allocAll_app pays invs = allocAll_try pays invs := by
  induction pays generalizing invs with
  | nil => rfl
  | cons p ps ih =>
    have hp : ¬p.amount ≤ 0 := not_le.mpr (h p (by simp))
    simp only [allocAll_app, allocAll_try, List.foldl_cons, if_neg hp]
    exact ih _ (fun q hq => h q (by simp [hq]))

theorem paysOf_pos (cutoff : Int) (g : List Txn) : ∀ p ∈ paysOf cutoff g, 0 < p.amount := by
  intro p hp
  unfold paysOf at hp
  rw [List.mem_insertionSort] at hp
  obtain ⟨t, ht, rfl⟩ := List.mem_map.mp hp
  have := List.mem_filter.mp ht
  have h2 := this.2
  simp only [Bool.and_eq_true, decide_eq_true_eq] at h2
  exact h2.1

theorem w45_divergence (inv : PendInv) :
    within45_app inv = within45_try inv ∨
      (within45_app inv = "No" ∧ within45_try inv = "Yes") := by
  by_cases hfull : inv.amount ≤ inv.paidAmt
  · left
    unfold within45_app within45_try
    rw [if_pos hfull]
  · have happ : within45_app inv = "No" := by
      unfold within45_app
      rw [if_neg hfull]
    rcases hd : inv.paidDate with _ | d
    · left
      rw [happ]
      unfold within45_try
      rw [hd]
    · by_cases hdl : d ≤ deadlineOf inv
      · right
        refine ⟨happ, ?_⟩
        unfold within45_try
        rw [hd]
        show (if d ≤ deadlineOf inv then ("Yes" : String) else "No") = "Yes"
        exact if_pos hdl
      · left
        rw [happ]
        unfold within45_try
        rw [hd]
        show ("No" : String) = if d ≤ deadlineOf inv then "Yes" else "No"
        rw [if_neg hdl]

theorem disRowFor_rel (msmeMap : List MsmeRow) (party : String) (inv : PendInv) :
    disRel (disRowFor within45_app msmeMap party inv)
      (disRowFor within45_try msmeMap party inv) := by
  by_cases he : (isExempt msmeMap party).1 = true
  · left
    simp [disRowFor, he]
  · have hef : (isExempt msmeMap party).1 = false := by simpa using he
    have ea : disRowFor within45_app msmeMap party inv =
        { party := party, invoiceDate := inv.date, invoiceAmount := inv.amount,
          unpaidAfter := inv.remaining, paidAmtReport := min inv.paidAmt inv.amount,
          paidDateAfter := inv.paidDate, within45 := within45_app inv,
          disallowed := if within45_app inv == "Yes" then "No" else "Yes",
          exemptionApplied := "No", exemptionReason := (isExempt msmeMap party).2 } := by
      simp [disRowFor, hef]
    have eb : disRowFor within45_try msmeMap party inv =
        { party := party, invoiceDate := inv.date, invoiceAmount := inv.amount,
          unpaidAfter := inv.remaining, paidAmtReport := min inv.paidAmt inv.amount,
          paidDateAfter := inv.paidDate, within45 := within45_try inv,
          disallowed := if within45_try inv == "Yes" then "No" else "Yes",
          exemptionApplied := "No", exemptionReason := (isExempt msmeMap party).2 } := by
      simp [disRowFor, hef]
    rcases w45_divergence inv with heq | ⟨hNo, hYes⟩
    · left
      rw [ea, eb, heq]
    · right
      rw [ea, eb, hNo, hYes]
      exact ⟨rfl, rfl, rfl, rfl, rfl, rfl, rfl, rfl, rfl, rfl, rfl, rfl, rfl⟩

/-- C2 counterexample: on the ledger with a bill of 100 on day 0 and a
payment of 40 on day 20, cutoff day 10 and an empty exemption map, the two
entry points disagree: app.py reports the open invoice as Within 45 Days No
and disallowed Yes (only partially paid), while app_try_1.py reports Yes and
not disallowed (its evaluator never checks full payment). -/
theorem C2_engines_differ_cex :
    ((engine_app [⟨"A", 0, 0, 100⟩, ⟨"A", 20, 40, 0⟩] 10 []).dis43b.map
        (fun r => (r.within45, r.disallowed)) = [("No", "Yes")]) ∧
    ((engine_try [⟨"A", 0, 0, 100⟩, ⟨"A", 20, 40, 0⟩] 10 []).dis43b.map
        (fun r => (r.within45, r.disallowed)) = [("Yes", "No")]) ∧
    engine_app [⟨"A", 0, 0, 100⟩, ⟨"A", 20, 40, 0⟩] 10 [] ≠
      engine_try [⟨"A", 0, 0, 100⟩, ⟨"A", 20, 40, 0⟩] 10 [] := by
  refine ⟨by decide, by decide, by decide⟩

/-- C2 amended: the two engines agree on the aging summary and on the
invoice-level aging log for every input, and their disallowance logs agree
row for row on every field except that, for a non-exempt invoice that is
only partially paid after cutoff with its last recorded paid date on or
before the deadline, app.py reports No / disallowed Yes where app_try_1.py
reports Yes / disallowed No. -/
theorem C2_engines_agree_except_within45 (df : List Txn) (cutoff : Int)
    (msmeMap0 : List MsmeRow) :
    (engine_app df cutoff msmeMap0).aging = (engine_try df cutoff msmeMap0).aging ∧
    (engine_app df cutoff msmeMap0).fifoLog = (engine_try df cutoff msmeMap0).fifoLog ∧
    List.Forall₂ disRel (engine_app df cutoff msmeMap0).dis43b
      (engine_try df cutoff msmeMap0).dis43b := by
  refine ⟨rfl, rfl, ?_⟩
  show List.Forall₂ disRel
    ((((partyNames df).map (fun p =>
      (processParty_app cutoff (normMap msmeMap0) p (groupOf df p)).2.2))).flatten)
    ((((partyNames df).map (fun p =>
      (processParty_try cutoff (normMap msmeMap0) p (groupOf df p)).2.2))).flatten)
  apply forall₂_flatten_map
  intro p _
  show List.Forall₂ disRel
    (disRowsOf within45_app (normMap msmeMap0) p
      (allocAll_app (paysOf cutoff (groupOf df p)) (pendingOf (reconcile cutoff (groupOf df p)).bills)))
    (disRowsOf within45_try (normMap msmeMap0) p
      (allocAll_try (paysOf cutoff (groupOf df p)) (pendingOf (reconcile cutoff (groupOf df p)).bills)))
  rw [← allocAll_eq _ _ (paysOf_pos cutoff (groupOf df p))]
  exact forall₂_map_same _ _ _ (fun inv _ => disRowFor_rel (normMap msmeMap0) p inv)

/-! Lemmas and claim C10. -/

theorem matchDebit_dates (c : Int) :
    ∀ (amt : Int) (bills : List Bill), (∀ b ∈ bills, b.date ≤ c) →
      ∀ b2 ∈ (matchDebit amt bills).1, b2.date ≤ c := by
  intro amt bills
  induction bills generalizing amt with
  | nil => intro h b2 hb2; simp [matchDebit] at hb2
  | cons b bs ih =>
    intro h b2 hb2
    by_cases h0 : amt ≤ 0
    · rw [show (matchDebit amt (b :: bs)).1 = b :: bs by simp [matchDebit, h0]] at hb2
      exact h b2 hb2
    · by_cases hpop : b.matched + min (b.amount - b.matched) amt = b.amount
      · rw [show (matchDebit amt (b :: bs)).1 =
            (matchDebit (amt - min (b.amount - b.matched) amt) bs).1 by
          simp [matchDebit, h0, hpop]] at hb2
        exact ih _ (fun x hx => h x (by simp [hx])) b2 hb2
      · rw [show (matchDebit amt (b :: bs)).1 =
            { b with matched := b.matched + min (b.amount - b.matched) amt } :: bs by
          simp [matchDebit, h0, hpop]] at hb2
        rcases List.mem_cons.mp hb2 with rfl | hmem
        · exact h b (by simp)
        · exact h b2 (by simp [hmem])

theorem reconStep_dates (cutoff : Int) (s : RState) (t : Txn)
    (h : ∀ b ∈ s.bills, b.date ≤ cutoff) :
    ∀ b ∈ (reconStep cutoff s t).bills, b.date ≤ cutoff := by
  intro b hb
  by_cases hdb : 0 < t.debit ∧ t.date ≤ cutoff
  · rw [show (reconStep cutoff s t).bills = (matchDebit t.debit s.bills).1 by
      unfold reconStep; rw [if_pos hdb]] at hb
    exact matchDebit_dates cutoff t.debit s.bills h b hb
  · by_cases hcr : 0 < t.credit ∧ t.date ≤ cutoff
    · rw [show (reconStep cutoff s t).bills =
          (if 0 < (matchCredit t.credit s.advances).2 then
            s.bills ++ [⟨t.date, (matchCredit t.credit s.advances).2, 0⟩] else s.bills) by
        unfold reconStep; rw [if_neg hdb, if_pos hcr]] at hb
      by_cases hpos : 0 < (matchCredit t.credit s.advances).2
      · rw [if_pos hpos] at hb
        rcases List.mem_append.mp hb with hmem | hmem
        · exact h b hmem
        · rcases List.mem_singleton.mp hmem with rfl
          exact hcr.2
      · rw [if_neg hpos] at hb
        exact h b hb
    · rw [show reconStep cutoff s t = s by unfold reconStep; rw [if_neg hdb, if_neg hcr]] at hb
      exact h b hb

theorem reconcile_dates (cutoff : Int) :
    ∀ (txns : List Txn) (s : RState), (∀ b ∈ s.bills, b.date ≤ cutoff) →
      ∀ b ∈ (txns.foldl (reconStep cutoff) s).bills, b.date ≤ cutoff := by
  intro txns
  induction txns with
  | nil => intro s h; exact h
  | cons t ts ih =>
    intro s h
    exact ih (reconStep cutoff s t) (reconStep_dates cutoff s t h)

theorem allocPay_dates (payDate : Int) :
    ∀ (payRem : Int) (invs : List PendInv),
      ((allocPay payDate payRem invs).1).map (·.date) = invs.map (·.date) := by
  intro payRem invs
  induction invs generalizing payRem with
  | nil => simp [allocPay]
  | cons i rest ih =>
    by_cases h0 : payRem ≤ 0
    · simp [allocPay, h0]
    · by_cases h1 : i.remaining ≤ 0
      · simp [allocPay, h0, h1, ih]
      · simp [allocPay, h0, h1, ih]

theorem allocAll_app_dates :
    ∀ (pays : List Pay) (invs : List PendInv),
      (allocAll_app pays invs).map (·.date) = invs.map (·.date) := by
  intro pays
  induction pays with
  | nil => intro invs; rfl
  | cons p ps ih =>
    intro invs
    by_cases h0 : p.amount ≤ 0
    · simp only [allocAll_app, List.foldl_cons, if_pos h0]
      exact ih invs
    · simp only [allocAll_app, List.foldl_cons, if_neg h0]
      rw [show (List.foldl (fun acc q => if q.amount ≤ 0 then acc
          else (allocPay q.date q.amount acc).1) ((allocPay p.date p.amount invs).1) ps) =
          allocAll_app ps ((allocPay p.date p.amount invs).1) from rfl]
      rw [ih, allocPay_dates]

theorem disRowFor_invoiceDate (w45 : PendInv → String) (msmeMap : List MsmeRow)
    (party : String) (inv : PendInv) :
    (disRowFor w45 msmeMap party inv).invoiceDate = inv.date := by
  by_cases he : (isExempt msmeMap party).1 = true <;> simp [disRowFor, he]

/-- C10: every row of the invoice-level aging log has an invoice date on or
before the cutoff and a non-negative reported age, and every row of the
disallowance log has an invoice date on or before the cutoff — open
invoices are only ever created from credit transactions dated on or before
the cutoff. -/
theorem C10_log_dates_le_cutoff (df : List Txn) (cutoff : Int) (msmeMap0 : List MsmeRow) :
    (∀ row ∈ (engine_app df cutoff msmeMap0).fifoLog,
      row.invoiceDate ≤ cutoff ∧ 0 ≤ row.age) ∧
    (∀ row ∈ (engine_app df cutoff msmeMap0).dis43b, row.invoiceDate ≤ cutoff) := by
  have hbills : ∀ p, ∀ b ∈ (reconcile cutoff (groupOf df p)).bills, b.date ≤ cutoff :=
    fun p => reconcile_dates cutoff (groupOf df p) ⟨[], []⟩ (by simp)
  constructor
  · intro row hrow
    have hrow2 : row ∈ ((partyNames df).map (fun p =>
        logRowsOf cutoff p (reconcile cutoff (groupOf df p)).bills)).flatten := hrow
    rw [List.mem_flatten] at hrow2
    obtain ⟨l, hl, hrl⟩ := hrow2
    obtain ⟨p, _, rfl⟩ := List.mem_map.mp hl
    obtain ⟨b, hb, rfl⟩ := List.mem_map.mp hrl
    have hbd : b.date ≤ cutoff := hbills p b (List.mem_filter.mp hb).1
    exact ⟨hbd, by simpa using hbd⟩
  · intro row hrow
    have hrow2 : row ∈ ((partyNames df).map (fun p =>
        disRowsOf within45_app (normMap msmeMap0) p
          (allocAll_app (paysOf cutoff (groupOf df p))
            (pendingOf (reconcile cutoff (groupOf df p)).bills)))).flatten := hrow
    rw [List.mem_flatten] at hrow2
    obtain ⟨l, hl, hrl⟩ := hrow2
    obtain ⟨p, _, rfl⟩ := List.mem_map.mp hl
    obtain ⟨inv, hinv, rfl⟩ := List.mem_map.mp hrl
    rw [disRowFor_invoiceDate]
    have hdt : inv.date ∈ (allocAll_app (paysOf cutoff (groupOf df p))
        (pendingOf (reconcile cutoff (groupOf df p)).bills)).map (·.date) :=
      List.mem_map.mpr ⟨inv, hinv, rfl⟩
    rw [allocAll_app_dates] at hdt
    obtain ⟨i0, hi0, hdate⟩ := List.mem_map.mp hdt
    obtain ⟨b, hb, rfl⟩ := List.mem_map.mp hi0
    rw [← hdate]
    exact hbills p b (List.mem_filter.mp hb).1

/-- C10 witness: the bound evaluated on a one-bill ledger, cutoff day 5. -/
theorem C10_log_dates_le_cutoff_witness :
    (⟨"A", 0, 100, 0, 100, 5, "0-45", ""⟩ : LogRow) ∈
        (engine_app [⟨"A", 0, 0, 100⟩] 5 []).fifoLog ∧
    ((⟨"A", 0, 100, 0, 100, 5, "0-45", ""⟩ : LogRow).invoiceDate ≤ 5 ∧
      0 ≤ (⟨"A", 0, 100, 0, 100, 5, "0-45", ""⟩ : LogRow).age) ∧
    (⟨"A", 0, 100, 100, 0, none, "No", "Yes", "No", ""⟩ : DisRow) ∈
        (engine_app [⟨"A", 0, 0, 100⟩] 5 []).dis43b ∧
    (⟨"A", 0, 100, 100, 0, none, "No", "Yes", "No", ""⟩ : DisRow).invoiceDate ≤ 5 :=
  ⟨by decide,
    (C10_log_dates_le_cutoff [⟨"A", 0, 0, 100⟩] 5 []).1 _ (by decide),
    by decide,
    (C10_log_dates_le_cutoff [⟨"A", 0, 0, 100⟩] 5 []).2 _ (by decide)⟩

/-! Lemmas and claim C7. -/

theorem lexLtB_trichot : ∀ l m : List Char, lexLtB l m = true ∨ l = m ∨ lexLtB m l = true := by
  intro l
  induction l with
  | nil =>
    intro m
    cases m with
    | nil => exact Or.inr (Or.inl rfl)
    | cons b bs => exact Or.inl rfl
  | cons a as ih =>
    intro m
    cases m with
    | nil => exact Or.inr (Or.inr rfl)
    | cons b bs =>
      rcases lt_trichotomy a b with hlt | heq | hgt
      · left
        simp [lexLtB, hlt]
      · subst heq
        rcases ih bs with h | h | h
        · left
          simp [lexLtB, h]
        · exact Or.inr (Or.inl (by rw [h]))
        · right
          right
          simp [lexLtB, h]
      · right
        right
        simp [lexLtB, hgt]

theorem lexLtB_trans : ∀ l m n : List Char,
    lexLtB l m = true → lexLtB m n = true → lexLtB l n = true := by
  intro l
  induction l with
  | nil =>
    intro m n h1 h2
    cases m with
    | nil => simp [lexLtB] at h1
    | cons b bs =>
      cases n with
      | nil => simp [lexLtB] at h2
      | cons c cs => rfl
  | cons a as ih =>
    intro m n h1 h2
    cases m with
    | nil => simp [lexLtB] at h1
    | cons b bs =>
      cases n with
      | nil => simp [lexLtB] at h2
      | cons c cs =>
        by_cases hab : a < b
        · by_cases hbc : b < c
          · simp [lexLtB, lt_trans hab hbc]
          · by_cases hbc2 : b = c
            · subst hbc2
              simp [lexLtB, hab]
            · exfalso
              revert h2
              simp [lexLtB, hbc, hbc2]
        · by_cases hab2 : a = b
          · subst hab2
            have h1s : lexLtB as bs = true := by simpa [lexLtB, lt_irrefl] using h1
            by_cases hbc : a < c
            · simp [lexLtB, hbc]
            · by_cases hbc2 : a = c
              · subst hbc2
                have h2s : lexLtB bs cs = true := by simpa [lexLtB, lt_irrefl] using h2
                simp [lexLtB, lt_irrefl, ih bs cs h1s h2s]
              · exfalso
                revert h2
                simp [lexLtB, hbc, hbc2]
          · exfalso
            revert h1
            simp [lexLtB, hab, hab2]

instance : IsTrans Txn txnLe where
  trans := by
    intro a b c hab hbc
    rcases hab with h1 | ⟨e1, d1⟩
    · rcases hbc with h2 | ⟨e2, d2⟩
      · exact Or.inl (lexLtB_trans a.party.data b.party.data c.party.data h1 h2)
      · exact Or.inl (by rw [← e2]; exact h1)
    · rcases hbc with h2 | ⟨e2, d2⟩
      · exact Or.inl (by rw [e1]; exact h2)
      · exact Or.inr ⟨e1.trans e2, le_trans d1 d2⟩

instance : IsTotal Txn txnLe where
  total := by
    intro a b
    rcases lexLtB_trichot a.party.data b.party.data with h | h | h
    · exact Or.inl (Or.inl h)
    · have he : a.party = b.party := by
        have h2 : a.party.data = b.party.data := h
        cases ap : a.party with
        | mk da =>
          cases bp : b.party with
          | mk db => exact congrArg String.mk (by rw [ap, bp] at h2; exact h2)
      rcases le_total a.date b.date with hd | hd
      · exact Or.inl (Or.inr ⟨he, hd⟩)
      · exact Or.inr (Or.inr ⟨he.symm, hd⟩)
    · exact Or.inr (Or.inl h)

theorem parseAccum_acc : ∀ (rows : List RawRow) (cur : Option String) (acc : List Txn),
    parseAccum rows cur acc = acc ++ parseAccum rows cur [] := by
  intro rows
  induction rows with
  | nil => intro cur acc; simp [parseAccum]
  | cons r rest ih =>
    intro cur acc
    simp only [parseAccum]
    rw [ih _ (acc ++ rowTxns cur r), ih _ ([] ++ rowTxns cur r)]
    simp

theorem parseAccum_append_single :
    ∀ (rows : List RawRow) (r : RawRow) (cur : Option String) (acc : List Txn),
      parseAccum (rows ++ [r]) cur acc =
        parseAccum rows cur acc ++ rowTxns (rows.foldl nextParty cur) r := by
  intro rows
  induction rows with
  | nil =>
    intro r cur acc
    simp [parseAccum, parseAccum_acc]
  | cons x rest ih =>
    intro r cur acc
    simp only [List.cons_append, parseAccum, List.foldl_cons]
    exact ih r (nextParty cur x) (acc ++ rowTxns cur x)

/-- C7 counterexample: a party marker whose name cell holds the empty string
makes the row loop drop every subsequent transaction row (Python truthiness
of the empty current party), even though a marker has been seen, the date
parses with a value on or after 2000-01-01 and both numeric cells convert;
with a non-empty name the same transaction row is accepted.  So the claimed
acceptance criterion (marker seen + valid date + numbers parse) is not
sufficient. -/
theorem C7_parse_cex :
    markerP ⟨"Ledger:", none, some "", NumCell.na, NumCell.na⟩ = true ∧
    RawRow.c0date ⟨"x", some 19700, none, NumCell.na, NumCell.val 100⟩ = some 19700 ∧
    y2000 ≤ 19700 ∧
    numOk (RawRow.c5 ⟨"x", some 19700, none, NumCell.na, NumCell.val 100⟩) = some 0 ∧
    numOk (RawRow.c6 ⟨"x", some 19700, none, NumCell.na, NumCell.val 100⟩) = some 100 ∧
    parse_ledger [⟨"Ledger:", none, some "", NumCell.na, NumCell.na⟩,
      ⟨"x", some 19700, none, NumCell.na, NumCell.val 100⟩] = [] ∧
    parse_ledger [⟨"Ledger:", none, some "X", NumCell.na, NumCell.na⟩,
      ⟨"x", some 19700, none, NumCell.na, NumCell.val 100⟩] = [⟨"X", 19700, 0, 100⟩] := by
  refine ⟨by decide, by decide, by decide, by decide, by decide, by decide, by decide⟩

/-- C7 amended: a candidate row is accepted iff it is not a marker row, the
current party (from the markers seen so far) exists AND is non-empty, the
date cell parsed to a date on or after 2000-01-01, and both numeric cells
convert; rows failing any of these are silently dropped; and the output of
the normalizer is sorted by (party, date) ascending. -/
theorem C7_parse_accept_and_sorted :
    (∀ (rows : List RawRow) (r : RawRow),
      parseRecords (rows ++ [r]) = parseRecords rows ++ rowTxns (curPartyAfter rows) r) ∧
    (∀ (cur : Option String) (r : RawRow),
      rowTxns cur r ≠ [] ↔
        (markerP r = false ∧ (∃ p, cur = some p ∧ p ≠ "") ∧
          (∃ d, r.c0date = some d ∧ y2000 ≤ d) ∧
          (∃ dq, numOk r.c5 = some dq) ∧ (∃ cq, numOk r.c6 = some cq))) ∧
    (∀ rows : List RawRow, List.Sorted txnLe (parse_ledger rows)) := by
  refine ⟨fun rows r => parseAccum_append_single rows r none [], ?_, ?_⟩
  · intro cur r
    by_cases hm : markerP r = true
    · simp [rowTxns, hm]
    · have hm2 : markerP r = false := by simpa using hm
      rcases cur with _ | p
      · simp [rowTxns, hm2]
      · by_cases hp : p = ""
        · simp [rowTxns, hm2, hp]
        · rcases hd : r.c0date with _ | d
          · simp [rowTxns, hm2, hp, hd]
          · by_cases hy : d < y2000
            · simp only [rowTxns, hm2, Bool.false_eq_true, if_false, hp, hd, if_pos hy]
              constructor
              · intro hne
                exact absurd rfl hne
              · rintro ⟨-, -, ⟨d2, hd2, hy2⟩, -⟩
                injection hd2 with hdd
                omega
            · rcases h5 : numOk r.c5 with _ | dq
              · simp [rowTxns, hm2, hp, hd, hy, h5]
              · rcases h6 : numOk r.c6 with _ | cq
                · simp [rowTxns, hm2, hp, hd, hy, h5, h6]
                · have hrw : rowTxns (some p) r = [⟨p, d, dq, cq⟩] := by
                    simp [rowTxns, hm2, hp, hd, hy, h5, h6]
                  rw [hrw]
                  constructor
                  · intro _
                    exact ⟨hm2, ⟨p, rfl, hp⟩, ⟨d, rfl, by omega⟩, ⟨dq, rfl⟩, ⟨cq, rfl⟩⟩
                  · intro _
                    simp
  · intro rows
    exact List.sorted_insertionSort txnLe (parseRecords rows)

/-- C7 witness: the acceptance characterization applied to a concrete marker
row followed by a concrete valid transaction row. -/
theorem C7_parse_accept_and_sorted_witness :
    parseRecords ([⟨"Ledger:", none, some "X", NumCell.na, NumCell.na⟩] ++
        [⟨"x", some 19700, none, NumCell.na, NumCell.val 100⟩]) =
      parseRecords [⟨"Ledger:", none, some "X", NumCell.na, NumCell.na⟩] ++
        rowTxns (curPartyAfter [⟨"Ledger:", none, some "X", NumCell.na, NumCell.na⟩])
          ⟨"x", some 19700, none, NumCell.na, NumCell.val 100⟩ ∧
    rowTxns (some "X") ⟨"x", some 19700, none, NumCell.na, NumCell.val 100⟩ ≠ [] :=
  ⟨C7_parse_accept_and_sorted.1 [⟨"Ledger:", none, some "X", NumCell.na, NumCell.na⟩]
      ⟨"x", some 19700, none, NumCell.na, NumCell.val 100⟩,
    (C7_parse_accept_and_sorted.2.1 (some "X")
        ⟨"x", some 19700, none, NumCell.na, NumCell.val 100⟩).mpr
      ⟨by decide, ⟨"X", rfl, by decide⟩, ⟨19700, rfl, by decide⟩, ⟨0, rfl⟩, ⟨100, rfl⟩⟩⟩

/-! Lemmas and claim C8. -/

theorem filter_ne_nil_iff {α : Type} (p : α → Bool) :
    ∀ l : List α, l.filter p ≠ [] ↔ ∃ x ∈ l, p x = true := by
  intro l
  induction l with
  | nil => simp
  | cons a t ih =>
    by_cases hpa : p a = true
    · simp [List.filter_cons, hpa]
    · have hpa2 : p a = false := by simpa using hpa
      simp [List.filter_cons, hpa2, ih]

/-- C8 counterexample: app_try_1.py performs no column validation at all.
Loading a mapping whose table has only the Supplier Name column (so the
three attribute columns are missing, modelled by none fields) produces no
error, the upload is stored, and the computation proceeds; worse, the
missing Registered column reads back as the empty string, so every matched
supplier is reported exempt under rule 1 instead of the run aborting. -/
theorem C8_try_no_validation_cex :
    (uploadMsme_try [⟨"Acme", none, none, none⟩]).errorMsg = none ∧
    (uploadMsme_try [⟨"Acme", none, none, none⟩]).stored = [⟨"Acme", none, none, none⟩] ∧
    missingColsOf ["Supplier Name"] ≠ [] ∧
    isExempt [⟨"Acme", none, none, none⟩] "Acme" = (true, "Exempt: Non-MSME registered") := by
  refine ⟨by decide, by decide, by decide, by decide⟩

/-- C8 amended: in app.py the upload handler raises the validation error iff
some required column is missing, and on error the previously stored mapping
is kept unchanged, so the invalid upload never reaches the engine and no
output is computed from it; an unknown supplier is never an error and
defaults to not exempt.  app_try_1.py (see the counterexample) performs no
such validation. -/
theorem C8_upload_validation (cols : List String) (uploaded prev : List MsmeRow) :
    ((uploadMsme_app cols uploaded prev).errorMsg ≠ none ↔
      ∃ c ∈ requiredCols, cols.contains c = false) ∧
    ((uploadMsme_app cols uploaded prev).errorMsg ≠ none →
      (uploadMsme_app cols uploaded prev).stored = prev) ∧
    (∀ (msmeMap : List MsmeRow) (party : String),
      msmeMap.find? (supplierMatches party) = none → isExempt msmeMap party = (false, "")) := by
  refine ⟨?_, ?_, ?_⟩
  · by_cases hm : missingColsOf cols = []
    · have he : (uploadMsme_app cols uploaded prev).errorMsg = none := by
        simp [uploadMsme_app, hm]
      simp only [he]
      constructor
      · intro h
        exact absurd rfl h
      · rintro ⟨c, hc, hb⟩
        exfalso
        have hpc : (!(cols.contains c)) = true := by
          rw [hb]
          rfl
        have hmem : c ∈ requiredCols.filter (fun c => !(cols.contains c)) :=
          List.mem_filter.mpr ⟨hc, hpc⟩
        rw [show requiredCols.filter (fun c => !(cols.contains c)) = missingColsOf cols from
          rfl, hm] at hmem
        simp at hmem
    · constructor
      · intro _
        obtain ⟨c, hc⟩ := List.exists_mem_of_ne_nil _ hm
        have h2 := List.mem_filter.mp hc
        exact ⟨c, h2.1, by simpa using h2.2⟩
      · intro _
        simp [uploadMsme_app, hm]
  · intro herr
    by_cases hm : missingColsOf cols = []
    · exfalso
      apply herr
      simp [uploadMsme_app, hm]
    · simp [uploadMsme_app, hm]
  · intro msmeMap party hfind
    unfold isExempt
    rw [hfind]

/-- C8 witness: the validation evaluated on an upload missing the Registered
column: the error fires, the previous mapping is kept, and an unlisted
supplier defaults to not exempt. -/
theorem C8_upload_validation_witness :
    (uploadMsme_app ["Supplier Name"] [⟨"U", some "Yes", none, none⟩]
        [⟨"P", some "No", none, none⟩]).errorMsg ≠ none ∧
    (uploadMsme_app ["Supplier Name"] [⟨"U", some "Yes", none, none⟩]
        [⟨"P", some "No", none, none⟩]).stored = [⟨"P", some "No", none, none⟩] ∧
    isExempt [] "Zed" = (false, "") :=
  ⟨(C8_upload_validation ["Supplier Name"] [⟨"U", some "Yes", none, none⟩]
        [⟨"P", some "No", none, none⟩]).1.mpr ⟨"Registered (Yes/No)", by decide, by decide⟩,
    (C8_upload_validation ["Supplier Name"] [⟨"U", some "Yes", none, none⟩]
        [⟨"P", some "No", none, none⟩]).2.1
      ((C8_upload_validation ["Supplier Name"] [⟨"U", some "Yes", none, none⟩]
        [⟨"P", some "No", none, none⟩]).1.mpr ⟨"Registered (Yes/No)", by decide, by decide⟩),
    (C8_upload_validation ["Supplier Name"] [⟨"U", some "Yes", none, none⟩]
        [⟨"P", some "No", none, none⟩]).2.2 [] "Zed" (by decide)⟩
